import Mathlib

/-
Verification of the `option_chain_tool` repository (src/src/lib.rs).

The repository implements a procedural macro `opt` that rewrites an
optional-chaining token sequence (operators `?.`, `?Ok.`, `?Err.`) into a
nest of `if let` expressions.  This file gives a shallow embedding of the
two components:

* `split_on_optional_variants` — the scanner that partitions the input
  token sequence into `OptionalSegment`s (lib.rs lines 284-378), including
  the re-tag pass (lines 354-356) and the last-token resolution
  (lines 359-377);
* `opt` / `if_let` / `ends_with_fn_call` / `some_wrapper` — the expression
  builder (lib.rs lines 121-267).

Tokens are modelled structurally; the Rust code never inspects the
`Spacing` attribute of a `Punct` (it only calls `as_char`), so spacing is
omitted from the model.  The Rust `panic!` in `if_let` for the `Root`
variant (lib.rs line 245) is modelled by returning `none`; all other paths
return `some` of the emitted token list.
-/

/-- Delimiters of a proc-macro `Group` (Rust `proc_macro::Delimiter`). -/
inductive Delim where
  | paren
  | brace
  | bracket
  | invisible
deriving DecidableEq

/-- Rust `proc_macro::TokenTree`: identifier, punctuation character,
literal, or delimited group.  Spacing of punctuation is not modelled
because lib.rs never reads it. -/
inductive TokenTree where
  | ident (s : String)
  | punct (c : Char)
  | lit (s : String)
  | group (d : Delim) (ts : List TokenTree)

/-- The segment classification, Rust `enum OptionalVariant`
(lib.rs lines 269-276). -/
inductive OptionalVariant where
  | Root
  | Option
  | Ok
  | Err
  | Required
deriving DecidableEq

/-- One scanned segment, Rust `struct OptionalSegment`
(lib.rs lines 278-282). -/
structure OptionalSegment where
  variant : OptionalVariant
  tokens : List TokenTree

/-- The scanner loop of `split_on_optional_variants`
(lib.rs lines 291-352), with the final flush of the accumulator included
as the base case.  Arguments: remaining input, the `current` accumulator,
`current_variant`, and the `result` vector so far.

The `?` arm performs the bounded lookahead of lines 295-328: a following
`.` yields `Option`; a following `Ok`/`Err` identifier requires one more
`.` (consuming the identifier; on failure only the single token after the
identifier is pushed back, lines 317-323); any other continuation leaves
the peeked token unconsumed and the `?` itself is dropped. -/
def scanLoop : List TokenTree → List TokenTree → OptionalVariant → List OptionalSegment → List OptionalSegment
  | [], current, cv, result => result ++ [⟨cv, current⟩]
  | TokenTree.punct c :: rest, current, cv, result =>
    if c = '?' then
      match h : rest with
      | TokenTree.punct d :: rest2 =>
        if d = '.' then
          if current.isEmpty then
            scanLoop rest2 [] OptionalVariant.Option result
          else
            scanLoop rest2 [] OptionalVariant.Option (result ++ [⟨cv, current⟩])
        else
          scanLoop rest current cv result
      | TokenTree.ident s :: rest2 =>
        if s = "Ok" ∨ s = "Err" then
          match h2 : rest2 with
          | TokenTree.punct e :: rest3 =>
            if e = '.' then
              if current.isEmpty then
                scanLoop rest3 [] (if s = "Ok" then OptionalVariant.Ok else OptionalVariant.Err) result
              else
                scanLoop rest3 [] (if s = "Ok" then OptionalVariant.Ok else OptionalVariant.Err)
                  (result ++ [⟨cv, current⟩])
            else
              scanLoop rest3 (current ++ [TokenTree.punct e]) cv result
          | other :: rest3 => scanLoop rest3 (current ++ [other]) cv result
          | [] => scanLoop rest2 current cv result
        else
          scanLoop rest current cv result
      | _ => scanLoop rest current cv result
    else
      scanLoop rest (current ++ [TokenTree.punct c]) cv result
  | t :: rest, current, cv, result => scanLoop rest (current ++ [t]) cv result
termination_by l current cv result => l.length
decreasing_by all_goals simp_wf <;> simp_all <;> omega

/-- The re-tag pass of lib.rs lines 354-356:
`for i in 0..result.len() - 1 { result[i].variant = result[i+1].variant }`.
Because the write at index `i` happens after the read at index `i + 1`
of the same iteration and before any write to `i + 1`, the loop shifts
each segment's variant to the (original) variant of its successor; the
last segment is unchanged. -/
def retag : List OptionalSegment → List OptionalSegment
  | [] => []
  | [s] => [s]
  | s :: s2 :: rest => ⟨s2.variant, s.tokens⟩ :: retag (s2 :: rest)

/-- Overwrite the variant of the last segment,
Rust `result[result_len - 1].variant = ...` (lib.rs lines 362-376). -/
def setLastVariant : List OptionalSegment → OptionalVariant → List OptionalSegment
  | [], _ => []
  | [s], v => [⟨v, s.tokens⟩]
  | s :: s2 :: rest, v => s :: setLastVariant (s2 :: rest) v

/-- The variant chosen from the input's last token,
the `match input_tokens.last().unwrap()` of lib.rs lines 363-376. -/
def lastTokenKind : TokenTree → OptionalVariant
  | TokenTree.punct c => if c = '?' then OptionalVariant.Option else OptionalVariant.Required
  | TokenTree.ident s =>
      if s = "Ok" then OptionalVariant.Ok
      else if s = "Err" then OptionalVariant.Err
      else OptionalVariant.Required
  | _ => OptionalVariant.Required

/-- Rust `split_on_optional_variants` (lib.rs lines 284-378): scan,
re-tag, then resolve the last segment's variant from the input's last
token (returning the re-tagged result unchanged when the input is empty,
lines 359-361). -/
def split_on_optional_variants (input : List TokenTree) : List OptionalSegment :=
  let result := scanLoop input [] OptionalVariant.Root []
  let result := retag result
  match input.getLast? with
  | none => result
  | some t => setLastVariant result (lastTokenKind t)

/-- Rust `ends_with_fn_call` (lib.rs lines 192-205): the last token is a
parenthesized group. -/
def ends_with_fn_call (tokens : List TokenTree) : Bool :=
  match tokens.getLast? with
  | some (TokenTree.group Delim.paren _) => true
  | _ => false

/-- Rust `some_wrapper` (lib.rs lines 182-190): `Some ( body )`. -/
def some_wrapper (body : List TokenTree) : List TokenTree :=
  [TokenTree.ident "Some", TokenTree.group Delim.paren body]

/-- Rust `if_let` (lib.rs lines 207-267).  Emits
`if let <pat> (____v) = [&] after_eq { body } else { None }` where the
pattern head is `Some`, `Ok`, `Err`, or empty for `Required`.  The `Root`
variant panics in Rust (line 245); that is modelled as `none`. -/
def if_let (variant : OptionalVariant) (after_eq : List TokenTree)
    (body : List TokenTree) (is_add_amp : Bool) : Option (List TokenTree) :=
  match variant with
  | OptionalVariant.Root => none
  | _ =>
    let pat : List TokenTree :=
      match variant with
      | OptionalVariant.Option => [TokenTree.ident "Some"]
      | OptionalVariant.Ok => [TokenTree.ident "Ok"]
      | OptionalVariant.Err => [TokenTree.ident "Err"]
      | _ => []
    some ([TokenTree.ident "if", TokenTree.ident "let"] ++ pat ++
      [TokenTree.group Delim.paren [TokenTree.ident "____v"], TokenTree.punct '='] ++
      (if is_add_amp then [TokenTree.punct '&'] else []) ++
      after_eq ++
      [TokenTree.group Delim.brace body, TokenTree.ident "else",
       TokenTree.group Delim.brace [TokenTree.ident "None"]])

/-- The borrow decision of the non-first branch of the `opt` loop
(lib.rs lines 154-159): `true` unless the reverse index is `0` and the
segment's tokens end in a call group. -/
def is_add_amp_calc (index : Nat) (tokens : List TokenTree) : Bool :=
  if index = 0 then (if ends_with_fn_call tokens then false else true) else true

/-- The loop body of Rust `opt` (lib.rs lines 135-177), processing the
segments in reverse order with their reverse-enumeration index, threading
the `result` stream.  The branch `segments_len - 1 == index` (the first
segment of the original order) uses the segment tokens directly and
always passes `true` for the borrow flag; every other segment is accessed
as `____v . tokens` with the borrow flag from `is_add_amp_calc`.  A
`none` from `if_let` (the Rust panic) aborts the whole expansion. -/
def optGo (segments_len : Nat) : List OptionalSegment → Nat → List TokenTree → Option (List TokenTree)
  | [], _, result => some result
  | segment :: restRev, index, result =>
    if segments_len - 1 = index then
      let result := if result.isEmpty then some_wrapper [TokenTree.ident "____v"] else result
      match if_let segment.variant segment.tokens result true with
      | none => none
      | some r => optGo segments_len restRev (index + 1) r
    else
      let is_add_amp := is_add_amp_calc index segment.tokens
      let after_eq := TokenTree.ident "____v" :: TokenTree.punct '.' :: segment.tokens
      let result := if result.isEmpty then some_wrapper [TokenTree.ident "____v"] else result
      match if_let segment.variant after_eq result is_add_amp with
      | none => none
      | some r => optGo segments_len restRev (index + 1) r

/-- Rust `pub fn opt` (lib.rs lines 121-180): split the input into
segments and fold the builder over them in reverse order. -/
def opt (input : List TokenTree) : Option (List TokenTree) :=
  let resp := split_on_optional_variants input
  let segments_len := resp.length
  optGo segments_len resp.reverse 0 []

/-
Runtime semantics of the emitted code.

The stream emitted by `opt` for segments `s₀ s₁ … sₖ` is the nest

  if let P₀(____v) = & s₀.tokens           { …
    if let Pᵢ(____v) = & ____v . sᵢ.tokens { …
      Some(____v) … } else { None } … } else { None }

where `Pᵢ` is the pattern head chosen by `if_let` from `sᵢ.variant`
(`Some`, `Ok`, `Err`, or none for `Required`, whose tuple pattern
`(____v)` is irrefutable).  An environment `Env` interprets values:
`access` is field access, and `asSome` / `asOk` / `asErr` view a value as
the interior of `Some` / `Ok` / `Err` when the corresponding pattern
match would succeed.  The borrow `&` is a non-owning view and is the
identity at the value level.  `runSegs` is the direct denotation of that
nest: the head segment's tokens are the caller's base expression, whose
value is supplied as `b`; each later segment must be a single-identifier
field access (the fragment the functional claims quantify over), and the
returned list records which field accesses were evaluated, in order. -/
structure Env (V : Type) where
  access : V → String → V
  asSome : V → Option V
  asOk : V → Option V
  asErr : V → Option V

/-- Outcome of the conditional binding for one segment kind: which values
make the `if let` pattern of `if_let` match, and what gets bound.
`Required` emits an irrefutable pattern, so it always binds the value
itself; `Root` never reaches `if_let` (Rust panics) and is interpreted as
never matching. -/
def gate {V : Type} (env : Env V) : OptionalVariant → V → Option V
  | OptionalVariant.Option, v => env.asSome v
  | OptionalVariant.Ok, v => env.asOk v
  | OptionalVariant.Err, v => env.asErr v
  | OptionalVariant.Required, v => some v
  | OptionalVariant.Root, _ => none

/-- A segment consisting of a single field identifier. -/
def fieldName? : List TokenTree → Option String
  | [TokenTree.ident s] => some s
  | _ => none

/-- Denotation of the inner part of the emitted nest, starting from value
`x` bound by the previous gate: each segment accesses a field of `x` and
gates the result; the failure branch yields `none` and evaluation stops
(no later access runs).  Second component: the fields accessed, in order.
A segment that is not a single-identifier access denotes `(none, [])`;
the theorems below only apply `runRest` to single-identifier segments. -/
def runRest {V : Type} (env : Env V) (x : V) : List OptionalSegment → Option V × List String
  | [] => (some x, [])
  | s :: rest =>
    match fieldName? s.tokens with
    | none => (none, [])
    | some f =>
      match gate env s.variant (env.access x f) with
      | none => (none, [f])
      | some y =>
        let r := runRest env y rest
        (r.1, f :: r.2)

/-- Denotation of the full emitted nest: the head segment's tokens are
the base expression whose value is `b`, gated by the head's variant; the
remaining segments run via `runRest`. -/
def runSegs {V : Type} (env : Env V) (b : V) : List OptionalSegment → Option V × List String
  | [] => (some b, [])
  | s :: rest =>
    match gate env s.variant b with
    | none => (none, [])
    | some x => runRest env x rest

/-- Input token sequence of the shape claimed by C1, after the base:
`?. f₁ ?. f₂ … ?. fₙ`. -/
def chainTail : List String → List TokenTree
  | [] => []
  | f :: fs => TokenTree.punct '?' :: TokenTree.punct '.' :: TokenTree.ident f :: chainTail fs

/-- Full C1-shaped input: `base ?. f₁ ?. … ?. fₙ`. -/
def chainTokens (s : String) (fs : List String) : List TokenTree :=
  TokenTree.ident s :: chainTail fs

/-- Expected segments after the base segment for a C1-shaped input:
every field `Option`-gated except the last, which is `Required`. -/
def chainSegs : List String → List OptionalSegment
  | [] => []
  | [f] => [⟨OptionalVariant.Required, [TokenTree.ident f]⟩]
  | f :: fs => ⟨OptionalVariant.Option, [TokenTree.ident f]⟩ :: chainSegs fs

/-- The behavior claim C1 predicts, written from the claim's words: walk
the fields left to right; every field but the last must view as present
(`asSome`), the last field's value is taken unconditionally; evaluation
is absent from the first absent intermediate on, and the access list
stops at the failure point. -/
def specWalk {V : Type} (env : Env V) (x : V) : List String → Option V × List String
  | [] => (some x, [])
  | [f] => (some (env.access x f), [f])
  | f :: fs =>
    match env.asSome (env.access x f) with
    | none => (none, [f])
    | some y =>
      let r := specWalk env y fs
      (r.1, f :: r.2)

/-- Claim C1's predicted result for `base ?. f₁ ?. … ?. fₙ` with base
value `b`: the base itself must be present, then `specWalk`. -/
def specNullableChain {V : Type} (env : Env V) (b : V) (fs : List String) : Option V × List String :=
  match env.asSome b with
  | none => (none, [])
  | some x => specWalk env x fs

/-- Input of claim C4's trailing-gate family: `s ?. f` followed by a
trailing bare `?` (for `Option`), `?Ok` (for `Ok`) or `?Err` (for `Err`);
other variants get no trailing gate. -/
def trailTokens (s f : String) (g : OptionalVariant) : List TokenTree :=
  [TokenTree.ident s, TokenTree.punct '?', TokenTree.punct '.', TokenTree.ident f] ++
    (match g with
     | OptionalVariant.Option => [TokenTree.punct '?']
     | OptionalVariant.Ok => [TokenTree.punct '?', TokenTree.ident "Ok"]
     | OptionalVariant.Err => [TokenTree.punct '?', TokenTree.ident "Err"]
     | _ => [])

/-- Claim C4's predicted result for a trailing bare gate `g` after
`s ?. f`: unwrap the base, access `f`, gate it with `g`, and return the
unwrapped value wrapped as present, with no further access. -/
def specTrail {V : Type} (env : Env V) (b : V) (f : String) (g : OptionalVariant) : Option V × List String :=
  match env.asSome b with
  | none => (none, [])
  | some x =>
    match gate env g (env.access x f) with
    | none => (none, [f])
    | some y => (some y, [f])

/-- Token-level test: a top-level `?` punctuation token. -/
def isQuestion : TokenTree → Bool
  | TokenTree.punct c => c = '?'
  | _ => false

/-- Token-level test: an identifier literally named `Ok` or `Err`. -/
def isOkErrIdent : TokenTree → Bool
  | TokenTree.ident s => s = "Ok" || s = "Err"
  | _ => false

/-- Head of a token list is a brace-delimited group. -/
def headIsBrace : List TokenTree → Bool
  | TokenTree.group Delim.brace _ :: _ => true
  | _ => false

/-- Whether a stream contains, at any nesting depth, a `.` punctuation
token immediately followed by a brace group.  In Rust expression syntax a
`.` must be followed by an identifier, a tuple index, or `await`, never
by a block, so a stream with this shape is not a valid expression. -/
def hasDotBrace : List TokenTree → Bool
  | [] => false
  | TokenTree.punct c :: rest => (c = '.' && headIsBrace rest) || hasDotBrace rest
  | TokenTree.group _ ts :: rest => hasDotBrace ts || hasDotBrace rest
  | _ :: rest => hasDotBrace rest

/-- The borrow flag `opt` hands to `if_let` for the segment at reverse
index `index` of a chain of `segments_len` segments: the
`segments_len - 1 == index` branch of `optGo` passes `true` literally;
the other branch passes `is_add_amp_calc index tokens`. -/
def opt_is_add_amp (segments_len index : Nat) (tokens : List TokenTree) : Bool :=
  if segments_len - 1 = index then true else is_add_amp_calc index tokens

/-- A concrete environment on `Nat` used as evaluation input in witness
theorems: a value is present when even, `Ok` when divisible by 3, `Err`
when divisible by 5; field access mixes in the field name's length. -/
def envA : Env Nat where
  access v f := 2 * v + f.length
  asSome v := if v % 2 = 0 then some (v + 1) else none
  asOk v := if v % 3 = 0 then some (v + 2) else none
  asErr v := if v % 5 = 0 then some (v + 3) else none

/-- A concrete environment on `Nat` in which every value is present as an
`Option` but no value is an `Ok` or an `Err`. -/
def envPresent : Env Nat where
  access v _ := v + 1
  asSome v := some v
  asOk _ := none
  asErr _ := none

/-- The re-tag pass preserves length. -/
theorem retag_length (r : List OptionalSegment) : (retag r).length = r.length := by
  induction r using retag.induct <;> simp_all [retag]

/-- The re-tag pass preserves every segment's tokens. -/
theorem retag_tokens (r : List OptionalSegment) :
    (retag r).map OptionalSegment.tokens = r.map OptionalSegment.tokens := by
  induction r using retag.induct <;> simp_all [retag]

/-- The re-tag pass gives every non-terminal segment the variant that its
successor had before the pass, and keeps its tokens. -/
theorem retag_getElem?_variant (r : List OptionalSegment) (i : Nat) (h : i + 1 < r.length) :
    ((retag r)[i]?).map OptionalSegment.variant = (r[i + 1]?).map OptionalSegment.variant := by
  induction r using retag.induct generalizing i with
  | case1 => simp at h
  | case2 s => simp at h
  | case3 s s2 rest ih =>
    cases i with
    | zero => simp [retag]
    | succ j =>
      have hj : j + 1 < (s2 :: rest).length := by simpa using h
      simpa [retag] using ih j hj

/-- The re-tag pass keeps the last segment unchanged. -/
theorem retag_getElem?_last (r : List OptionalSegment) (h : r ≠ []) :
    (retag r)[r.length - 1]? = r[r.length - 1]? := by
  induction r using retag.induct with
  | case1 => simp at h
  | case2 s => simp [retag]
  | case3 s s2 rest ih =>
    have hne : s2 :: rest ≠ [] := by simp
    have := ih hne
    simpa [retag, List.getElem?_cons_succ] using this

/-- Overwriting the last variant preserves length. -/
theorem setLastVariant_length (r : List OptionalSegment) (v : OptionalVariant) :
    (setLastVariant r v).length = r.length := by
  induction r, v using setLastVariant.induct with
  | case1 v => simp [setLastVariant]
  | case2 s v => simp [setLastVariant]
  | case3 s s2 rest v ih => simp_all [setLastVariant]

/-- Overwriting the last variant preserves every segment's tokens. -/
theorem setLastVariant_tokens (r : List OptionalSegment) (v : OptionalVariant) :
    (setLastVariant r v).map OptionalSegment.tokens = r.map OptionalSegment.tokens := by
  induction r, v using setLastVariant.induct with
  | case1 v => simp [setLastVariant]
  | case2 s v => simp [setLastVariant]
  | case3 s s2 rest v ih => simp_all [setLastVariant]

/-- Overwriting the last variant leaves all earlier positions unchanged. -/
theorem setLastVariant_getElem?_lt (r : List OptionalSegment) (v : OptionalVariant)
    (i : Nat) (h : i + 1 < r.length) :
    (setLastVariant r v)[i]? = r[i]? := by
  induction r, v using setLastVariant.induct generalizing i with
  | case1 v => simp at h
  | case2 s v => simp at h
  | case3 s s2 rest v ih =>
    cases i with
    | zero => simp [setLastVariant]
    | succ j =>
      have hj : j + 1 < (s2 :: rest).length := by simpa using h
      simpa [setLastVariant] using ih j hj

/-- Overwriting the last variant puts exactly `v` at the last position,
keeping the tokens there. -/
theorem setLastVariant_getElem?_last (r : List OptionalSegment) (v : OptionalVariant) (h : r ≠ []) :
    (setLastVariant r v)[r.length - 1]? =
      (r[r.length - 1]?).map (fun s => ⟨v, s.tokens⟩) := by
  induction r, v using setLastVariant.induct with
  | case1 v => simp at h
  | case2 s v => simp [setLastVariant]
  | case3 s s2 rest v ih =>
    have hne : s2 :: rest ≠ [] := by simp
    have := ih hne
    simpa [setLastVariant, List.getElem?_cons_succ] using this

/-- Unfolding: end of input flushes the accumulator. -/
theorem scan_step_nil (cur : List TokenTree) (cv : OptionalVariant) (res : List OptionalSegment) :
    scanLoop [] cur cv res = res ++ [⟨cv, cur⟩] := by
  simp [scanLoop]

/-- Unfolding: `?` followed by `.` closes the current segment (pushed only
when nonempty) and starts an `Option` segment. -/
theorem scan_step_opt (cur : List TokenTree) (cv : OptionalVariant) (res : List OptionalSegment)
    (rest2 : List TokenTree) :
    scanLoop (TokenTree.punct '?' :: TokenTree.punct '.' :: rest2) cur cv res =
      scanLoop rest2 [] OptionalVariant.Option (if cur.isEmpty then res else res ++ [⟨cv, cur⟩]) := by
  by_cases h : cur.isEmpty <;> simp [scanLoop, h]

/-- Unfolding: `?` followed by a non-dot punctuation drops the `?` and
rescans from the punctuation. -/
theorem scan_step_qpunct (cur : List TokenTree) (cv : OptionalVariant) (res : List OptionalSegment)
    (d : Char) (rest2 : List TokenTree) (h : ¬d = '.') :
    scanLoop (TokenTree.punct '?' :: TokenTree.punct d :: rest2) cur cv res =
      scanLoop (TokenTree.punct d :: rest2) cur cv res := by
  simp [scanLoop, h]

/-- Unfolding: `? Ok .` / `? Err .` closes the current segment and starts
an `Ok`/`Err` segment. -/
theorem scan_step_okdot (cur : List TokenTree) (cv : OptionalVariant) (res : List OptionalSegment)
    (s : String) (rest3 : List TokenTree) (h : s = "Ok" ∨ s = "Err") :
    scanLoop (TokenTree.punct '?' :: TokenTree.ident s :: TokenTree.punct '.' :: rest3) cur cv res =
      scanLoop rest3 [] (if s = "Ok" then OptionalVariant.Ok else OptionalVariant.Err)
        (if cur.isEmpty then res else res ++ [⟨cv, cur⟩]) := by
  by_cases hc : cur.isEmpty <;> rcases h with h | h <;> simp [scanLoop, h, hc]

/-- Unfolding: `? Ok` / `? Err` followed by a non-dot punctuation drops
the `?` and the identifier and pushes only that punctuation. -/
theorem scan_step_okpunct (cur : List TokenTree) (cv : OptionalVariant) (res : List OptionalSegment)
    (s : String) (e : Char) (rest3 : List TokenTree) (h : s = "Ok" ∨ s = "Err") (he : ¬e = '.') :
    scanLoop (TokenTree.punct '?' :: TokenTree.ident s :: TokenTree.punct e :: rest3) cur cv res =
      scanLoop rest3 (cur ++ [TokenTree.punct e]) cv res := by
  rcases h with h | h <;> simp [scanLoop, h, he]

/-- Unfolding: `? Ok` / `? Err` followed by a non-punctuation token drops
the `?` and the identifier and pushes only that token. -/
theorem scan_step_okother (cur : List TokenTree) (cv : OptionalVariant) (res : List OptionalSegment)
    (s : String) (other : TokenTree) (rest3 : List TokenTree) (h : s = "Ok" ∨ s = "Err")
    (hother : ∀ c, other ≠ TokenTree.punct c) :
    scanLoop (TokenTree.punct '?' :: TokenTree.ident s :: other :: rest3) cur cv res =
      scanLoop rest3 (cur ++ [other]) cv res := by
  cases other with
  | punct c => exact absurd rfl (hother c)
  | ident s2 => rcases h with h | h <;> simp [scanLoop, h]
  | lit s2 => rcases h with h | h <;> simp [scanLoop, h]
  | group d ts => rcases h with h | h <;> simp [scanLoop, h]

/-- Unfolding: a trailing `? Ok` / `? Err` at the very end drops both
tokens and flushes. -/
theorem scan_step_okend (cur : List TokenTree) (cv : OptionalVariant) (res : List OptionalSegment)
    (s : String) (h : s = "Ok" ∨ s = "Err") :
    scanLoop [TokenTree.punct '?', TokenTree.ident s] cur cv res = res ++ [⟨cv, cur⟩] := by
  rcases h with h | h <;> simp [scanLoop, h]

/-- Unfolding: `?` followed by an identifier other than `Ok`/`Err` drops
the `?` and rescans from the identifier. -/
theorem scan_step_qident (cur : List TokenTree) (cv : OptionalVariant) (res : List OptionalSegment)
    (s : String) (rest2 : List TokenTree) (h : ¬(s = "Ok" ∨ s = "Err")) :
    scanLoop (TokenTree.punct '?' :: TokenTree.ident s :: rest2) cur cv res =
      scanLoop (TokenTree.ident s :: rest2) cur cv res := by
  rw [scanLoop.eq_def]
  simp [h]

/-- Unfolding: a trailing lone `?` is dropped and the accumulator is
flushed. -/
theorem scan_step_qnil (cur : List TokenTree) (cv : OptionalVariant) (res : List OptionalSegment) :
    scanLoop [TokenTree.punct '?'] cur cv res = res ++ [⟨cv, cur⟩] := by
  simp [scanLoop]

/-- Unfolding: `?` followed by a literal drops the `?` and rescans. -/
theorem scan_step_qlit (cur : List TokenTree) (cv : OptionalVariant) (res : List OptionalSegment)
    (s : String) (rest2 : List TokenTree) :
    scanLoop (TokenTree.punct '?' :: TokenTree.lit s :: rest2) cur cv res =
      scanLoop (TokenTree.lit s :: rest2) cur cv res := by
  simp [scanLoop]

/-- Unfolding: `?` followed by a group drops the `?` and rescans. -/
theorem scan_step_qgroup (cur : List TokenTree) (cv : OptionalVariant) (res : List OptionalSegment)
    (d : Delim) (ts rest2 : List TokenTree) :
    scanLoop (TokenTree.punct '?' :: TokenTree.group d ts :: rest2) cur cv res =
      scanLoop (TokenTree.group d ts :: rest2) cur cv res := by
  simp [scanLoop]

/-- Unfolding: a non-`?` punctuation is pushed to the accumulator. -/
theorem scan_step_punct (cur : List TokenTree) (cv : OptionalVariant) (res : List OptionalSegment)
    (c : Char) (rest : List TokenTree) (h : ¬c = '?') :
    scanLoop (TokenTree.punct c :: rest) cur cv res =
      scanLoop rest (cur ++ [TokenTree.punct c]) cv res := by
  rw [scanLoop.eq_def]
  simp [h]

/-- Unfolding: an identifier at the top of the input is pushed to the
accumulator (identifiers are only inspected during `?` lookahead). -/
theorem scan_step_ident (cur : List TokenTree) (cv : OptionalVariant) (res : List OptionalSegment)
    (s : String) (rest : List TokenTree) :
    scanLoop (TokenTree.ident s :: rest) cur cv res =
      scanLoop rest (cur ++ [TokenTree.ident s]) cv res := by
  simp [scanLoop]

/-- Unfolding: a literal is pushed to the accumulator. -/
theorem scan_step_lit (cur : List TokenTree) (cv : OptionalVariant) (res : List OptionalSegment)
    (s : String) (rest : List TokenTree) :
    scanLoop (TokenTree.lit s :: rest) cur cv res =
      scanLoop rest (cur ++ [TokenTree.lit s]) cv res := by
  simp [scanLoop]

/-- Unfolding: a delimited group is pushed to the accumulator whole; its
contents are never scanned. -/
theorem scan_step_group (cur : List TokenTree) (cv : OptionalVariant) (res : List OptionalSegment)
    (d : Delim) (ts rest : List TokenTree) :
    scanLoop (TokenTree.group d ts :: rest) cur cv res =
      scanLoop rest (cur ++ [TokenTree.group d ts]) cv res := by
  simp [scanLoop]


/-- Master shape invariant of the scanner loop: the loop only appends to
the incoming `result`, appends at least one segment, and among the
appended segments only the very first can carry the `Root` variant — and
then only when the incoming `current_variant` is itself `Root`.  (Every
later appended segment is pushed after some operator was recognized, so
its variant is `Option`, `Ok`, or `Err`.) -/
theorem scanLoop_master (l cur : List TokenTree) (cv : OptionalVariant) (res : List OptionalSegment) :
    ∃ tl, scanLoop l cur cv res = res ++ tl ∧ tl ≠ [] ∧
      (∀ i s, tl[i]? = some s → s.variant = OptionalVariant.Root →
        cv = OptionalVariant.Root ∧ i = 0) := by
  induction l, cur, cv, res using scanLoop.induct with
  | case1 current cv result =>
    refine ⟨[⟨cv, current⟩], scan_step_nil .., by simp, ?_⟩
    intro i s hi hroot
    match i, hi with
    | 0, hi =>
      simp only [List.getElem?_cons_zero, Option.some.injEq] at hi
      subst hi
      exact ⟨hroot, rfl⟩
  | case2 current cv result rest2 hemp ih =>
    obtain ⟨tl, h1, h2, h3⟩ := ih
    refine ⟨tl, ?_, h2, ?_⟩
    · rw [scan_step_opt]
      simp only [hemp, if_true]
      exact h1
    · intro i s hi hroot
      exact absurd (h3 i s hi hroot).1 (by simp)
  | case3 current cv result rest2 hemp ih =>
    obtain ⟨tl, h1, h2, h3⟩ := ih
    refine ⟨⟨cv, current⟩ :: tl, ?_, by simp, ?_⟩
    · rw [scan_step_opt]
      simp only [hemp, Bool.false_eq_true, if_false]
      rw [h1]
      simp
    · intro i s hi hroot
      match i, hi with
      | 0, hi =>
        simp only [List.getElem?_cons_zero, Option.some.injEq] at hi
        subst hi
        exact ⟨hroot, rfl⟩
      | j + 1, hi =>
        simp only [List.getElem?_cons_succ] at hi
        exact absurd (h3 j s hi hroot).1 (by simp)
  | case4 current cv result d rest2 hd ih =>
    obtain ⟨tl, h1, h2, h3⟩ := ih
    exact ⟨tl, by rw [scan_step_qpunct _ _ _ _ _ hd]; exact h1, h2, h3⟩
  | case5 current cv result s hs rest3 hemp heq ih =>
    obtain ⟨tl, h1, h2, h3⟩ := ih
    refine ⟨tl, ?_, h2, ?_⟩
    · rw [scan_step_okdot _ _ _ _ _ hs]
      simp only [hemp, if_true]
      simp only [dite_eq_ite] at h1
      exact h1
    · intro i s' hi hroot
      have := (h3 i s' hi hroot).1
      rcases hs with h | h <;> simp [h] at this
  | case6 current cv result s hs rest3 hemp heq ih =>
    obtain ⟨tl, h1, h2, h3⟩ := ih
    refine ⟨⟨cv, current⟩ :: tl, ?_, by simp, ?_⟩
    · rw [scan_step_okdot _ _ _ _ _ hs]
      simp only [hemp, Bool.false_eq_true, if_false]
      simp only [dite_eq_ite] at h1
      rw [h1]
      simp
    · intro i s' hi hroot
      match i, hi with
      | 0, hi =>
        simp only [List.getElem?_cons_zero, Option.some.injEq] at hi
        subst hi
        exact ⟨hroot, rfl⟩
      | j + 1, hi =>
        simp only [List.getElem?_cons_succ] at hi
        have := (h3 j s' hi hroot).1
        rcases hs with h | h <;> simp [h] at this
  | case7 current cv result s hs e rest3 he heq ih =>
    obtain ⟨tl, h1, h2, h3⟩ := ih
    exact ⟨tl, by rw [scan_step_okpunct _ _ _ _ _ _ hs he]; exact h1, h2, h3⟩
  | case8 current cv result s hs other rest3 heq hne ih =>
    obtain ⟨tl, h1, h2, h3⟩ := ih
    refine ⟨tl, ?_, h2, h3⟩
    have hother : ∀ c, other ≠ TokenTree.punct c := by
      intro c hc
      subst hc
      exact hne c rfl rfl HEq.rfl
    rw [scan_step_okother _ _ _ _ _ _ hs hother]
    exact h1
  | case9 current cv result s hs heq ih =>
    refine ⟨[⟨cv, current⟩], scan_step_okend _ _ _ _ hs, by simp, ?_⟩
    intro i s' hi hroot
    match i, hi with
    | 0, hi =>
      simp only [List.getElem?_cons_zero, Option.some.injEq] at hi
      subst hi
      exact ⟨hroot, rfl⟩
  | case10 current cv result s rest2 hs ih =>
    obtain ⟨tl, h1, h2, h3⟩ := ih
    exact ⟨tl, by rw [scan_step_qident _ _ _ _ _ hs]; exact h1, h2, h3⟩
  | case11 rest current cv result hp hid ih =>
    obtain ⟨tl, h1, h2, h3⟩ := ih
    refine ⟨tl, ?_, h2, h3⟩
    cases rest with
    | nil =>
      rw [scan_step_qnil]
      rw [scan_step_nil] at h1
      exact h1
    | cons t rest2 =>
      cases t with
      | punct c => exact (hp c rest2 rfl).elim
      | ident s => exact (hid s rest2 rfl).elim
      | lit s =>
        rw [scan_step_qlit]
        exact h1
      | group d ts =>
        rw [scan_step_qgroup]
        exact h1
  | case12 c rest current cv result hc ih =>
    obtain ⟨tl, h1, h2, h3⟩ := ih
    exact ⟨tl, by rw [scan_step_punct _ _ _ _ _ hc]; exact h1, h2, h3⟩
  | case13 t rest current cv result ht ih =>
    obtain ⟨tl, h1, h2, h3⟩ := ih
    refine ⟨tl, ?_, h2, h3⟩
    cases t with
    | punct c => exact (ht c rfl).elim
    | ident s =>
      rw [scan_step_ident]
      exact h1
    | lit s =>
      rw [scan_step_lit]
      exact h1
    | group d ts =>
      rw [scan_step_group]
      exact h1

/-- The scanner never returns an empty segment list. -/
theorem scanLoop_ne_nil (l cur : List TokenTree) (cv : OptionalVariant) (res : List OptionalSegment) :
    scanLoop l cur cv res ≠ [] := by
  obtain ⟨tl, h1, h2, _⟩ := scanLoop_master l cur cv res
  rw [h1]
  simp [h2]

/-- Positions already present in `result` are untouched by the scanner. -/
theorem scanLoop_getElem?_left (l cur : List TokenTree) (cv : OptionalVariant)
    (res : List OptionalSegment) (i : Nat) (h : i < res.length) :
    (scanLoop l cur cv res)[i]? = res[i]? := by
  obtain ⟨tl, h1, _, _⟩ := scanLoop_master l cur cv res
  rw [h1, List.getElem?_append_left h]

/-- Among the segments the scanner appends, a `Root`-tagged one can only
be the first appended one, and only when the incoming variant is `Root`. -/
theorem scanLoop_root_pos (l cur : List TokenTree) (cv : OptionalVariant)
    (res : List OptionalSegment) (i : Nat) (s : OptionalSegment) (hle : res.length ≤ i)
    (hget : (scanLoop l cur cv res)[i]? = some s) (hroot : s.variant = OptionalVariant.Root) :
    cv = OptionalVariant.Root ∧ i = res.length := by
  obtain ⟨tl, h1, _, h3⟩ := scanLoop_master l cur cv res
  rw [h1, List.getElem?_append_right hle] at hget
  obtain ⟨hcv, hz⟩ := h3 _ s hget hroot
  exact ⟨hcv, by omega⟩

/-- In the scan of a whole input (empty accumulator, `Root` incoming
variant, empty result), every segment after the first is non-`Root`. -/
theorem scanned_nonRoot (input : List TokenTree) (j : Nat) (s : OptionalSegment) (h1 : 1 ≤ j)
    (hget : (scanLoop input [] OptionalVariant.Root [])[j]? = some s) :
    s.variant ≠ OptionalVariant.Root := by
  intro hroot
  obtain ⟨-, hz⟩ := scanLoop_root_pos input [] OptionalVariant.Root [] j s (by simp) hget hroot
  simp only [List.length_nil] at hz
  omega

/-- The kind resolved from a last token is never `Root`
(lib.rs lines 363-376 produce `Option`, `Ok`, `Err`, or `Required`). -/
theorem lastTokenKind_ne_root (t : TokenTree) : lastTokenKind t ≠ OptionalVariant.Root := by
  cases t with
  | punct c => by_cases h : c = '?' <;> simp [lastTokenKind, h]
  | ident s =>
    by_cases h1 : s = "Ok"
    · simp [lastTokenKind, h1]
    · by_cases h2 : s = "Err" <;> simp [lastTokenKind, h1, h2]
  | lit s => simp [lastTokenKind]
  | group d ts => simp [lastTokenKind]

/-- The split of any input yields at least one segment. -/
theorem split_length_pos (input : List TokenTree) :
    0 < (split_on_optional_variants input).length := by
  have hscan := scanLoop_ne_nil input [] OptionalVariant.Root []
  unfold split_on_optional_variants
  cases hL : input.getLast? with
  | none =>
    simp only [retag_length]
    exact List.length_pos.mpr hscan
  | some t =>
    simp only [setLastVariant_length, retag_length]
    exact List.length_pos.mpr hscan

/-- Main safety invariant: when the input is nonempty, no segment of the
split carries the `Root` variant.  The re-tag pass gives every
non-terminal segment the variant of its successor in the scan (which is
non-`Root` because only the scan's first segment can be `Root`), and the
last-token resolution overwrites the final segment with a non-`Root`
kind. -/
theorem split_variant_ne_root (input : List TokenTree) (hne : input ≠ []) :
    ∀ s ∈ split_on_optional_variants input, s.variant ≠ OptionalVariant.Root := by
  intro s hs
  obtain ⟨j, hj⟩ := List.mem_iff_getElem?.mp hs
  cases hL : input.getLast? with
  | none => exact absurd (List.getLast?_eq_none_iff.mp hL) hne
  | some t =>
    have hsplit : split_on_optional_variants input =
        setLastVariant (retag (scanLoop input [] OptionalVariant.Root []))
          (lastTokenKind t) := by
      unfold split_on_optional_variants
      rw [hL]
    set scanned := scanLoop input [] OptionalVariant.Root [] with hscanned
    have hn : (split_on_optional_variants input).length = scanned.length := by
      rw [hsplit, setLastVariant_length, retag_length]
    have hjlt : j < scanned.length := by
      rw [← hn]
      exact (List.getElem?_eq_some.mp hj).1
    have hretlen : (retag scanned).length = scanned.length := retag_length scanned
    rcases Nat.lt_or_ge j (scanned.length - 1) with hcase | hcase
    · -- a non-terminal position: its variant came from the scan's j+1
      have heq1 : (split_on_optional_variants input)[j]? = (retag scanned)[j]? := by
        rw [hsplit]
        exact setLastVariant_getElem?_lt _ _ j (by omega)
      rw [heq1] at hj
      have heq2 := retag_getElem?_variant scanned j (by omega)
      rw [hj] at heq2
      intro hroot
      rcases h2 : scanned[j + 1]? with _ | s2
      · rw [h2] at heq2
        simp at heq2
      · rw [h2] at heq2
        have hvs2 : s.variant = s2.variant := by simpa using heq2
        exact scanned_nonRoot input (j + 1) s2 (by omega) h2 (by rw [← hvs2, hroot])
    · -- the terminal position: overwritten with the last-token kind
      have hjeq : j = (retag scanned).length - 1 := by omega
      have hret_ne : retag scanned ≠ [] := by
        intro hnil
        rw [hnil] at hretlen
        simp at hretlen
        omega
      have hlast := setLastVariant_getElem?_last (retag scanned) (lastTokenKind t) hret_ne
      rw [hsplit, hjeq, hlast] at hj
      rcases h2 : (retag scanned)[(retag scanned).length - 1]? with _ | s0
      · rw [h2] at hj
        simp at hj
      · rw [h2] at hj
        have hseq : (⟨lastTokenKind t, s0.tokens⟩ : OptionalSegment) = s := by
          simpa using hj
        intro hroot
        rw [← hseq] at hroot
        exact lastTokenKind_ne_root t hroot

/-- `if_let` produces a stream for every variant except `Root`
(whose Rust branch panics). -/
theorem if_let_isSome (v : OptionalVariant) (a b : List TokenTree) (amp : Bool)
    (h : v ≠ OptionalVariant.Root) : (if_let v a b amp).isSome := by
  cases v with
  | Root => exact absurd rfl h
  | Option => simp [if_let]
  | Ok => simp [if_let]
  | Err => simp [if_let]
  | Required => simp [if_let]

/-- The builder loop succeeds whenever no processed segment carries the
`Root` variant. -/
theorem optGo_isSome (segsRev : List OptionalSegment) (len : Nat) :
    ∀ (idx : Nat) (res : List TokenTree),
      (∀ s ∈ segsRev, s.variant ≠ OptionalVariant.Root) →
      (optGo len segsRev idx res).isSome := by
  induction segsRev with
  | nil => intro idx res h; simp [optGo]
  | cons seg rest ih =>
    intro idx res h
    have hseg : seg.variant ≠ OptionalVariant.Root := h seg (List.mem_cons_self seg rest)
    have hrest : ∀ s ∈ rest, s.variant ≠ OptionalVariant.Root :=
      fun s hs => h s (List.mem_cons_of_mem seg hs)
    by_cases hidx : len - 1 = idx
    · obtain ⟨r, hr⟩ := Option.isSome_iff_exists.mp
        (if_let_isSome seg.variant seg.tokens
          (if res.isEmpty then some_wrapper [TokenTree.ident "____v"] else res) true hseg)
      simp only [optGo, hidx, if_true]
      rw [hr]
      exact ih (idx + 1) r hrest
    · obtain ⟨r, hr⟩ := Option.isSome_iff_exists.mp
        (if_let_isSome seg.variant
          (TokenTree.ident "____v" :: TokenTree.punct '.' :: seg.tokens)
          (if res.isEmpty then some_wrapper [TokenTree.ident "____v"] else res)
          (is_add_amp_calc idx seg.tokens) hseg)
      simp only [optGo, hidx, if_false]
      rw [hr]
      exact ih (idx + 1) r hrest

/-- For every nonempty input the expansion completes: the builder never
reaches the `Root` panic. -/
theorem opt_isSome_of_ne_nil (input : List TokenTree) (hne : input ≠ []) :
    (opt input).isSome := by
  unfold opt
  apply optGo_isSome
  intro s hs
  rw [List.mem_reverse] at hs
  exact split_variant_ne_root input hne s hs

/-- Expanding the empty input hits the `Root` panic of `if_let`
(modelled as `none`). -/
theorem opt_nil_eq_none : opt [] = none := by
  simp [opt, split_on_optional_variants, scanLoop, retag, optGo, if_let, some_wrapper]

/-- Claim C7: after the scan, the segmenter performs a second pass that
assigns to every non-terminal segment `i` the gating kind of its
successor (`result[i].variant := result[i+1].variant` for all `i` before
the last, each read happening before that cell is written, hence the
successor's value from the scan), leaving tokens and length unchanged;
and `split_on_optional_variants` applies exactly this pass to the scan
result before resolving the last segment from the input's last token. -/
theorem claim_C7_retag_second_pass (r : List OptionalSegment) (i : Nat) (h : i + 1 < r.length) :
    ((retag r)[i]?).map OptionalSegment.variant = (r[i + 1]?).map OptionalSegment.variant ∧
    ((retag r)[i]?).map OptionalSegment.tokens = (r[i]?).map OptionalSegment.tokens ∧
    (retag r).length = r.length ∧
    (∀ (input : List TokenTree) (t : TokenTree), input.getLast? = some t →
      split_on_optional_variants input =
        setLastVariant (retag (scanLoop input [] OptionalVariant.Root []))
          (lastTokenKind t)) := by
  refine ⟨retag_getElem?_variant r i h, ?_, retag_length r, ?_⟩
  · have hmap := retag_tokens r
    have h1 : ((retag r).map OptionalSegment.tokens)[i]? = (r.map OptionalSegment.tokens)[i]? := by
      rw [hmap]
    simpa [List.getElem?_map] using h1
  · intro input t ht
    unfold split_on_optional_variants
    rw [ht]

/-- Witness for claim C7 at a concrete two-segment list and index 0. -/
theorem claim_C7_witness :
    (0 : Nat) + 1 <
      ([⟨OptionalVariant.Root, []⟩, ⟨OptionalVariant.Option, [TokenTree.ident "b"]⟩] :
        List OptionalSegment).length ∧
    (((retag [⟨OptionalVariant.Root, []⟩, ⟨OptionalVariant.Option, [TokenTree.ident "b"]⟩])[0]?).map
        OptionalSegment.variant =
      (([⟨OptionalVariant.Root, []⟩, ⟨OptionalVariant.Option, [TokenTree.ident "b"]⟩] :
        List OptionalSegment)[0 + 1]?).map OptionalSegment.variant ∧
    ((retag [⟨OptionalVariant.Root, []⟩, ⟨OptionalVariant.Option, [TokenTree.ident "b"]⟩])[0]?).map
        OptionalSegment.tokens =
      (([⟨OptionalVariant.Root, []⟩, ⟨OptionalVariant.Option, [TokenTree.ident "b"]⟩] :
        List OptionalSegment)[0]?).map OptionalSegment.tokens ∧
    (retag [⟨OptionalVariant.Root, []⟩, ⟨OptionalVariant.Option, [TokenTree.ident "b"]⟩]).length =
      ([⟨OptionalVariant.Root, []⟩, ⟨OptionalVariant.Option, [TokenTree.ident "b"]⟩] :
        List OptionalSegment).length ∧
    (∀ (input : List TokenTree) (t : TokenTree), input.getLast? = some t →
      split_on_optional_variants input =
        setLastVariant (retag (scanLoop input [] OptionalVariant.Root []))
          (lastTokenKind t))) :=
  ⟨by simp, claim_C7_retag_second_pass _ 0 (by simp)⟩

/-- Claim C9: for every nonempty input the `Root` panic branch of
`if_let` is unreachable — after the re-tag pass and the last-token
resolution no segment carries `Root`, so the expansion of nonempty input
always produces a stream. -/
theorem claim_C9_no_root_panic (input : List TokenTree) (h : input ≠ []) :
    (∀ s ∈ split_on_optional_variants input, s.variant ≠ OptionalVariant.Root) ∧
    (opt input).isSome :=
  ⟨split_variant_ne_root input h, opt_isSome_of_ne_nil input h⟩

/-- Witness for claim C9 at the one-token input `a`. -/
theorem claim_C9_witness :
    ([TokenTree.ident "a"] : List TokenTree) ≠ [] ∧
    ((∀ s ∈ split_on_optional_variants [TokenTree.ident "a"],
        s.variant ≠ OptionalVariant.Root) ∧
     (opt [TokenTree.ident "a"]).isSome) :=
  ⟨by simp, claim_C9_no_root_panic [TokenTree.ident "a"] (by simp)⟩

/-- Claim C8: empty input yields exactly one segment, token-free and
tagged `Root`, and the builder then refuses the expansion (the `Root`
panic, modelled as `none`); every nonempty input expands to a stream with
no compile-time failure. -/
theorem claim_C8_empty_refused :
    split_on_optional_variants [] = [⟨OptionalVariant.Root, []⟩] ∧
    opt [] = none ∧
    ∀ input : List TokenTree, input ≠ [] → (opt input).isSome := by
  refine ⟨?_, opt_nil_eq_none, fun input h => opt_isSome_of_ne_nil input h⟩
  simp [split_on_optional_variants, scanLoop, retag]

/-- Witness for claim C8: the nonempty-input conjunct applied at `a`. -/
theorem claim_C8_witness :
    split_on_optional_variants [] = [⟨OptionalVariant.Root, []⟩] ∧
    opt [] = none ∧
    ([TokenTree.ident "a"] : List TokenTree) ≠ [] ∧
    (opt [TokenTree.ident "a"]).isSome :=
  ⟨claim_C8_empty_refused.1, claim_C8_empty_refused.2.1, by simp,
    claim_C8_empty_refused.2.2 [TokenTree.ident "a"] (by simp)⟩

/-- Counterexample to claim C3: the input `?. f` begins with a
chain-operator lead token and has no base expression, yet the expansion
does not fail — `opt` produces a replacement token stream (the claim
asserts a hard compile-time failure with no replacement produced). -/
theorem claim_C3_counterexample :
    (opt [TokenTree.punct '?', TokenTree.punct '.', TokenTree.ident "f"]).isSome :=
  opt_isSome_of_ne_nil _ (by simp)

/-- Claim C3 amended: a hard compile-time failure occurs only for empty
input; an input beginning with the chain-operator lead token (and hence
any operator-lead input without a base) still produces a replacement
token stream. -/
theorem claim_C3_amended (rest : List TokenTree) :
    (opt (TokenTree.punct '?' :: rest)).isSome ∧ opt [] = none :=
  ⟨opt_isSome_of_ne_nil _ (by simp), opt_nil_eq_none⟩

/-- Claim C2, evaluation at the failing input `a ? Ok b`: the failed
`?Ok` lookahead re-appends only the token after the identifier — the `?`
and the `Ok` are dropped, so the produced segment holds `[a, b]` instead
of the claimed `[a, ?, Ok, b]` (lib.rs lines 315-324 push only `other`). -/
theorem claim_C2_failing_eval :
    split_on_optional_variants
      [TokenTree.ident "a", TokenTree.punct '?', TokenTree.ident "Ok", TokenTree.ident "b"] =
      [⟨OptionalVariant.Required, [TokenTree.ident "a", TokenTree.ident "b"]⟩] := by
  simp [split_on_optional_variants, scanLoop, retag, setLastVariant, lastTokenKind]

/-- An input containing no top-level `?` is accumulated verbatim into a
single flushed segment. -/
theorem scanLoop_no_question (l : List TokenTree) :
    ∀ (cur : List TokenTree) (cv : OptionalVariant) (res : List OptionalSegment),
      (∀ tok ∈ l, isQuestion tok = false) →
      scanLoop l cur cv res = res ++ [⟨cv, cur ++ l⟩] := by
  induction l with
  | nil => intro cur cv res h; rw [scan_step_nil]; simp
  | cons t rest ih =>
    intro cur cv res h
    have ht : isQuestion t = false := h t (List.mem_cons_self t rest)
    have hrest : ∀ tok ∈ rest, isQuestion tok = false :=
      fun tok htok => h tok (List.mem_cons_of_mem t htok)
    cases t with
    | punct c =>
      have hc : ¬c = '?' := by simpa [isQuestion] using ht
      rw [scan_step_punct _ _ _ _ _ hc, ih _ _ _ hrest]
      simp
    | ident s =>
      rw [scan_step_ident, ih _ _ _ hrest]
      simp
    | lit s =>
      rw [scan_step_lit, ih _ _ _ hrest]
      simp
    | group d ts =>
      rw [scan_step_group, ih _ _ _ hrest]
      simp

/-- Counterexample to claim C5: the input `a . Ok` — a plain trailing
field access literally named `Ok`, with no `?` anywhere — is split into a
segment whose gating kind is `Ok`, not `Required`: the last-token
resolution of lib.rs lines 367-369 re-tags the final segment `Ok`
whenever the input's last token is the identifier `Ok`, so a plain
trailing `Ok`/`Err` identifier does change the classification. -/
theorem claim_C5_counterexample :
    split_on_optional_variants
      [TokenTree.ident "a", TokenTree.punct '.', TokenTree.ident "Ok"] =
      [⟨OptionalVariant.Ok,
        [TokenTree.ident "a", TokenTree.punct '.', TokenTree.ident "Ok"]⟩] := by
  simp [split_on_optional_variants, scanLoop, retag, setLastVariant, lastTokenKind]

/-- Claim C5 amended: during the scan an `Ok`/`Err` identifier that is
not examined by a `?` lookahead is passed through verbatim (for an input
with no top-level `?` the whole input becomes the single segment's
tokens, so nothing is consumed as an operator); however, the final
segment's gating kind is then set from the input's last token, so an
input ending in a plain identifier `Ok` or `Err` has its final segment
re-tagged `Ok` or `Err` even though no operator is present. -/
theorem claim_C5_amended (ts : List TokenTree) (t : TokenTree)
    (h1 : ts.getLast? = some t) (h2 : ∀ tok ∈ ts, isQuestion tok = false) :
    split_on_optional_variants ts = [⟨lastTokenKind t, ts⟩] := by
  unfold split_on_optional_variants
  rw [h1, scanLoop_no_question ts [] OptionalVariant.Root [] h2]
  simp [retag, setLastVariant]

/-- Witness for claim C5 at the input `a . Ok`: the trailing plain `Ok`
yields gating kind `lastTokenKind (ident Ok) = Ok`. -/
theorem claim_C5_witness :
    ([TokenTree.ident "a", TokenTree.punct '.', TokenTree.ident "Ok"] :
        List TokenTree).getLast? = some (TokenTree.ident "Ok") ∧
    (∀ tok ∈ ([TokenTree.ident "a", TokenTree.punct '.', TokenTree.ident "Ok"] :
        List TokenTree), isQuestion tok = false) ∧
    split_on_optional_variants
        [TokenTree.ident "a", TokenTree.punct '.', TokenTree.ident "Ok"] =
      [⟨lastTokenKind (TokenTree.ident "Ok"),
        [TokenTree.ident "a", TokenTree.punct '.', TokenTree.ident "Ok"]⟩] :=
  ⟨by simp, by simp [isQuestion], claim_C5_amended _ _ (by simp) (by simp [isQuestion])⟩

/-- Counterexample to claim C10: on the input `a ? Ok ? . b` the failed
`?Ok` lookahead re-pushes the token that followed the identifier — here
itself a `?` — into the accumulator, so the produced segment's token
list contains a top-level `?` punctuation token. -/
theorem claim_C10_counterexample :
    split_on_optional_variants
      [TokenTree.ident "a", TokenTree.punct '?', TokenTree.ident "Ok",
       TokenTree.punct '?', TokenTree.punct '.', TokenTree.ident "b"] =
      [⟨OptionalVariant.Required,
        [TokenTree.ident "a", TokenTree.punct '?', TokenTree.punct '.',
         TokenTree.ident "b"]⟩] ∧
    (split_on_optional_variants
      [TokenTree.ident "a", TokenTree.punct '?', TokenTree.ident "Ok",
       TokenTree.punct '?', TokenTree.punct '.', TokenTree.ident "b"]).any
        (fun s => s.tokens.any isQuestion) = true := by
  constructor
  · simp [split_on_optional_variants, scanLoop, retag, setLastVariant, lastTokenKind]
  · simp [split_on_optional_variants, scanLoop, retag, setLastVariant, lastTokenKind,
      isQuestion]

/-- Scanner invariant behind the amended claim C10: when the input holds
no top-level `Ok`/`Err` identifier (so the re-push path of the failed
identifier lookahead is unreachable), no scanned segment's token list
contains a top-level `?`. -/
theorem scanLoop_segments_no_question (l cur : List TokenTree) (cv : OptionalVariant)
    (res : List OptionalSegment) :
    (∀ tok ∈ l, isOkErrIdent tok = false) →
    cur.any isQuestion = false →
    (∀ s ∈ res, s.tokens.any isQuestion = false) →
    ∀ s ∈ scanLoop l cur cv res, s.tokens.any isQuestion = false := by
  induction l, cur, cv, res using scanLoop.induct with
  | case1 current cv result =>
    intro hl hcur hres s hs
    rw [scan_step_nil] at hs
    rcases List.mem_append.mp hs with h | h
    · exact hres s h
    · simp only [List.mem_singleton] at h
      subst h
      exact hcur
  | case2 current cv result rest2 hemp ih =>
    intro hl hcur hres s hs
    rw [scan_step_opt] at hs
    simp only [hemp, if_true] at hs
    exact ih (fun tok htok => hl tok (by simp [htok])) (by simp) hres s hs
  | case3 current cv result rest2 hemp ih =>
    intro hl hcur hres s hs
    rw [scan_step_opt] at hs
    simp only [hemp, Bool.false_eq_true, if_false] at hs
    refine ih (fun tok htok => hl tok (by simp [htok])) (by simp) ?_ s hs
    intro s2 hs2
    rcases List.mem_append.mp hs2 with h | h
    · exact hres s2 h
    · simp only [List.mem_singleton] at h
      subst h
      exact hcur
  | case4 current cv result d rest2 hd ih =>
    intro hl hcur hres s hs
    rw [scan_step_qpunct _ _ _ _ _ hd] at hs
    exact ih (fun tok htok => hl tok (by simp [List.mem_cons.mp htok])) hcur hres s hs
  | case5 current cv result s hs rest3 hemp heq ih =>
    intro hl hcur hres s' hs'
    have := hl (TokenTree.ident s) (by simp)
    rcases hs with h | h <;> simp [isOkErrIdent, h] at this
  | case6 current cv result s hs rest3 hemp heq ih =>
    intro hl hcur hres s' hs'
    have := hl (TokenTree.ident s) (by simp)
    rcases hs with h | h <;> simp [isOkErrIdent, h] at this
  | case7 current cv result s hs e rest3 he heq ih =>
    intro hl hcur hres s' hs'
    have := hl (TokenTree.ident s) (by simp)
    rcases hs with h | h <;> simp [isOkErrIdent, h] at this
  | case8 current cv result s hs other rest3 heq hne ih =>
    intro hl hcur hres s' hs'
    have := hl (TokenTree.ident s) (by simp)
    rcases hs with h | h <;> simp [isOkErrIdent, h] at this
  | case9 current cv result s hs heq ih =>
    intro hl hcur hres s' hs'
    have := hl (TokenTree.ident s) (by simp)
    rcases hs with h | h <;> simp [isOkErrIdent, h] at this
  | case10 current cv result s rest2 hs ih =>
    intro hl hcur hres s' hs'
    rw [scan_step_qident _ _ _ _ _ hs] at hs'
    exact ih (fun tok htok => hl tok (by simp [List.mem_cons.mp htok])) hcur hres s' hs'
  | case11 rest current cv result hp hid ih =>
    intro hl hcur hres s hs
    cases rest with
    | nil =>
      rw [scan_step_qnil] at hs
      rcases List.mem_append.mp hs with h | h
      · exact hres s h
      · simp only [List.mem_singleton] at h
        subst h
        exact hcur
    | cons t rest2 =>
      cases t with
      | punct c => exact (hp c rest2 rfl).elim
      | ident s2 => exact (hid s2 rest2 rfl).elim
      | lit s2 =>
        rw [scan_step_qlit] at hs
        exact ih (fun tok htok => hl tok (by simp [List.mem_cons.mp htok])) hcur hres s hs
      | group d ts =>
        rw [scan_step_qgroup] at hs
        exact ih (fun tok htok => hl tok (by simp [List.mem_cons.mp htok])) hcur hres s hs
  | case12 c rest current cv result hc ih =>
    intro hl hcur hres s hs
    rw [scan_step_punct _ _ _ _ _ hc] at hs
    refine ih (fun tok htok => hl tok (by simp [htok])) ?_ hres s hs
    simp [List.any_append, hcur, isQuestion, hc]
  | case13 t rest current cv result ht ih =>
    intro hl hcur hres s hs
    have htq : isQuestion t = false := by
      cases t with
      | punct c => exact (ht c rfl).elim
      | ident s2 => simp [isQuestion]
      | lit s2 => simp [isQuestion]
      | group d ts => simp [isQuestion]
    cases t with
    | punct c => exact (ht c rfl).elim
    | ident s2 =>
      rw [scan_step_ident] at hs
      refine ih (fun tok htok => hl tok (by simp [htok])) ?_ hres s hs
      simp [List.any_append, hcur, htq]
    | lit s2 =>
      rw [scan_step_lit] at hs
      refine ih (fun tok htok => hl tok (by simp [htok])) ?_ hres s hs
      simp [List.any_append, hcur, htq]
    | group d ts =>
      rw [scan_step_group] at hs
      refine ih (fun tok htok => hl tok (by simp [htok])) ?_ hres s hs
      simp [List.any_append, hcur, htq]

/-- Claim C10 amended: every `?` examined at the top level of the scan is
consumed and never itself re-emitted; in particular, for any input with
no top-level `Ok`/`Err` identifier (so no failed identifier lookahead can
re-push tokens) no produced segment contains a top-level `?`.  (The
counterexample shows the sole exception: a `?` consumed as the lookahead
token after `? Ok`/`? Err` is re-pushed into the accumulator and can
appear in a segment.) -/
theorem claim_C10_amended (ts : List TokenTree)
    (h : ∀ tok ∈ ts, isOkErrIdent tok = false) :
    ∀ s ∈ split_on_optional_variants ts, s.tokens.any isQuestion = false := by
  intro s hs
  have hscan := scanLoop_segments_no_question ts [] OptionalVariant.Root [] h (by simp) (by simp)
  have hmap : (split_on_optional_variants ts).map OptionalSegment.tokens =
      (scanLoop ts [] OptionalVariant.Root []).map OptionalSegment.tokens := by
    unfold split_on_optional_variants
    cases hL : ts.getLast? <;> simp [setLastVariant_tokens, retag_tokens]
  have hmem : s.tokens ∈ (scanLoop ts [] OptionalVariant.Root []).map OptionalSegment.tokens := by
    rw [← hmap]
    exact List.mem_map_of_mem _ hs
  obtain ⟨s2, hs2mem, hs2eq⟩ := List.mem_map.mp hmem
  rw [← hs2eq]
  exact hscan s2 hs2mem

/-- Witness for the amended claim C10 at the input `a ?. b` (no
`Ok`/`Err` identifiers): no segment carries a top-level `?`. -/
theorem claim_C10_witness :
    (∀ tok ∈ ([TokenTree.ident "a", TokenTree.punct '?', TokenTree.punct '.',
        TokenTree.ident "b"] : List TokenTree), isOkErrIdent tok = false) ∧
    (∀ s ∈ split_on_optional_variants
        [TokenTree.ident "a", TokenTree.punct '?', TokenTree.punct '.', TokenTree.ident "b"],
      s.tokens.any isQuestion = false) :=
  ⟨by simp [isOkErrIdent], claim_C10_amended _ (by simp [isOkErrIdent])⟩

/-- Counterexample to claim C4: for the trailing-`?.` input `a ?. f ?.`
the scanner produces a token-free `Required` segment (the dummy empty
access the claim says is not required), and the emitted stream contains a
`.` punctuation immediately followed by a brace group (`____v .` directly
before the body block) — a shape that is never valid Rust expression
syntax, so the emitted expression cannot type-check, let alone evaluate
to the wrapped value of `f`. -/
theorem claim_C4_counterexample :
    split_on_optional_variants
      [TokenTree.ident "a", TokenTree.punct '?', TokenTree.punct '.', TokenTree.ident "f",
       TokenTree.punct '?', TokenTree.punct '.'] =
      [⟨OptionalVariant.Option, [TokenTree.ident "a"]⟩,
       ⟨OptionalVariant.Option, [TokenTree.ident "f"]⟩,
       ⟨OptionalVariant.Required, []⟩] ∧
    hasDotBrace ((opt
      [TokenTree.ident "a", TokenTree.punct '?', TokenTree.punct '.', TokenTree.ident "f",
       TokenTree.punct '?', TokenTree.punct '.']).getD []) = true := by
  constructor
  · simp [split_on_optional_variants, scanLoop, retag, setLastVariant, lastTokenKind]
  · simp [opt, split_on_optional_variants, scanLoop, retag, setLastVariant, lastTokenKind,
      optGo, if_let, some_wrapper, is_add_amp_calc, ends_with_fn_call, hasDotBrace, headIsBrace]

/-- Claim C4 amended: a trailing bare gate — `?`, `?Ok`, or `?Err` with
nothing after it — works as claimed: the split yields
`[⟨Option, base⟩, ⟨g, f⟩]` and the emitted nest evaluates to the present
wrapping of the final step's unwrapped value on success and to absent on
failure, with no dummy access.  (A trailing `?.` instead produces an
empty `Required` segment whose emitted scrutinee `____v .` is not a valid
expression — see the counterexample.) -/
theorem claim_C4_amended {V : Type} (env : Env V) (b : V) (s f : String) (g : OptionalVariant)
    (hg : g = OptionalVariant.Option ∨ g = OptionalVariant.Ok ∨ g = OptionalVariant.Err) :
    runSegs env b (split_on_optional_variants (trailTokens s f g)) = specTrail env b f g := by
  have hsplit : split_on_optional_variants (trailTokens s f g) =
      [⟨OptionalVariant.Option, [TokenTree.ident s]⟩, ⟨g, [TokenTree.ident f]⟩] := by
    rcases hg with rfl | rfl | rfl <;>
      simp [trailTokens, split_on_optional_variants, scan_step_ident, scan_step_opt,
        scan_step_qnil, scan_step_okend, retag, setLastVariant, lastTokenKind]
  rw [hsplit]
  simp only [runSegs, gate]
  cases hb : env.asSome b with
  | none => simp [specTrail, hb]
  | some x =>
    simp only [specTrail, hb, runRest, fieldName?]

/-- Witness for the amended claim C4 with the `?Ok` trailing gate, the
environment `envA`, base value 4 (present, interior 5), and field `v`. -/
theorem claim_C4_witness :
    (OptionalVariant.Ok = OptionalVariant.Option ∨ OptionalVariant.Ok = OptionalVariant.Ok ∨
      OptionalVariant.Ok = OptionalVariant.Err) ∧
    runSegs envA 4 (split_on_optional_variants (trailTokens "u" "v" OptionalVariant.Ok)) =
      specTrail envA 4 "v" OptionalVariant.Ok :=
  ⟨by simp, claim_C4_amended envA 4 "u" "v" OptionalVariant.Ok (by simp)⟩

/-- Counterexample to claim C6: on `base ?. m() ?. f` the segment
`m ()` ends in a parenthesized call group yet is not the chain's final
segment, and the emitted stream borrows it anyway: the middle `if let`
reads `if let Some(____v) = & ____v . m ( ) { … }` — the `&` is present
(the claim says a call-ending segment is never borrowed, regardless of
position; `opt` skips the borrow only at reverse index 0). -/
theorem claim_C6_counterexample :
    ends_with_fn_call [TokenTree.ident "m", TokenTree.group Delim.paren []] = true ∧
    opt_is_add_amp 3 1 [TokenTree.ident "m", TokenTree.group Delim.paren []] = true ∧
    opt [TokenTree.ident "base", TokenTree.punct '?', TokenTree.punct '.', TokenTree.ident "m",
         TokenTree.group Delim.paren [], TokenTree.punct '?', TokenTree.punct '.',
         TokenTree.ident "f"] =
      some [TokenTree.ident "if", TokenTree.ident "let", TokenTree.ident "Some",
        TokenTree.group Delim.paren [TokenTree.ident "____v"], TokenTree.punct '=',
        TokenTree.punct '&', TokenTree.ident "base",
        TokenTree.group Delim.brace
          [TokenTree.ident "if", TokenTree.ident "let", TokenTree.ident "Some",
           TokenTree.group Delim.paren [TokenTree.ident "____v"], TokenTree.punct '=',
           TokenTree.punct '&', TokenTree.ident "____v", TokenTree.punct '.',
           TokenTree.ident "m", TokenTree.group Delim.paren [],
           TokenTree.group Delim.brace
             [TokenTree.ident "if", TokenTree.ident "let",
              TokenTree.group Delim.paren [TokenTree.ident "____v"], TokenTree.punct '=',
              TokenTree.punct '&', TokenTree.ident "____v", TokenTree.punct '.',
              TokenTree.ident "f",
              TokenTree.group Delim.brace
                [TokenTree.ident "Some", TokenTree.group Delim.paren [TokenTree.ident "____v"]],
              TokenTree.ident "else",
              TokenTree.group Delim.brace [TokenTree.ident "None"]],
           TokenTree.ident "else", TokenTree.group Delim.brace [TokenTree.ident "None"]],
        TokenTree.ident "else", TokenTree.group Delim.brace [TokenTree.ident "None"]] := by
  refine ⟨by simp [ends_with_fn_call], by simp [opt_is_add_amp, is_add_amp_calc, ends_with_fn_call], ?_⟩
  simp [opt, split_on_optional_variants, scanLoop, retag, setLastVariant, lastTokenKind,
    optGo, if_let, some_wrapper, is_add_amp_calc, ends_with_fn_call]

/-- Claim C6 amended: the borrow flag handed to `if_let` is `false`
exactly when the segment sits at reverse index 0 (the chain's final
segment), the chain has at least two segments, and the segment's last
token is a parenthesized call group; every other emitted scrutinee —
including non-final segments ending in a call, and the single segment of
a one-segment chain — is prefixed with `&`. -/
theorem claim_C6_amended (segments_len index : Nat) (tokens : List TokenTree)
    (h : index < segments_len) :
    opt_is_add_amp segments_len index tokens = false ↔
      (index = 0 ∧ 1 < segments_len ∧ ends_with_fn_call tokens = true) := by
  unfold opt_is_add_amp is_add_amp_calc
  by_cases h1 : segments_len - 1 = index
  · simp only [h1, if_true]
    constructor
    · intro hfalse
      exact absurd hfalse (by simp)
    · rintro ⟨rfl, h2, -⟩
      omega
  · simp only [h1, if_false]
    by_cases h2 : index = 0
    · subst h2
      have hlen : 1 < segments_len := by omega
      cases hE : ends_with_fn_call tokens <;> simp [hE, hlen]
    · simp [h2]

/-- Witness for the amended claim C6 at reverse index 1 of a
three-segment chain whose tokens end in a call group. -/
theorem claim_C6_witness :
    (1 : Nat) < 3 ∧
    (opt_is_add_amp 3 1 [TokenTree.ident "m", TokenTree.group Delim.paren []] = false ↔
      ((1 : Nat) = 0 ∧ (1 : Nat) < 3 ∧
        ends_with_fn_call [TokenTree.ident "m", TokenTree.group Delim.paren []] = true)) :=
  ⟨by simp, claim_C6_amended 3 1 [TokenTree.ident "m", TokenTree.group Delim.paren []] (by simp)⟩

/-- Scanning the tail `?. f₁ ?. … ?. fₙ` of a C1-shaped chain flushes the
accumulator as one segment and produces one `Option`-scanned segment per
field. -/
theorem scan_chain (fs : List String) :
    ∀ (cur : List TokenTree) (cv : OptionalVariant) (res : List OptionalSegment), cur ≠ [] →
      scanLoop (chainTail fs) cur cv res =
        res ++ ⟨cv, cur⟩ :: fs.map (fun f => ⟨OptionalVariant.Option, [TokenTree.ident f]⟩) := by
  induction fs with
  | nil =>
    intro cur cv res h
    simp [chainTail, scan_step_nil]
  | cons f fs ih =>
    intro cur cv res h
    have hne : cur.isEmpty = false := by
      cases cur with
      | nil => exact absurd rfl h
      | cons a l => rfl
    show scanLoop (TokenTree.punct '?' :: TokenTree.punct '.' :: TokenTree.ident f :: chainTail fs)
        cur cv res = _
    rw [scan_step_opt]
    simp only [hne, Bool.false_eq_true, if_false]
    rw [scan_step_ident]
    simp only [List.nil_append]
    rw [ih [TokenTree.ident f] OptionalVariant.Option _ (by simp)]
    simp

/-- The re-tag pass fixes a list of `Option`-scanned single-field
segments. -/
theorem retag_map_opt (fs : List String) :
    retag (fs.map (fun f => ⟨OptionalVariant.Option, [TokenTree.ident f]⟩)) =
      fs.map (fun f => ⟨OptionalVariant.Option, [TokenTree.ident f]⟩) := by
  induction fs with
  | nil => simp [retag]
  | cons f fs ih =>
    cases fs with
    | nil => simp [retag]
    | cons f2 fs2 =>
      simp only [List.map_cons] at ih ⊢
      rw [retag]
      rw [ih]

/-- Re-tagging a chain scan: the head (the base segment, scanned `Root`)
receives the variant of its successor, `Option`. -/
theorem retag_cons_chain (fs : List String) (hne : fs ≠ []) (v : OptionalVariant)
    (tks : List TokenTree) :
    retag (⟨v, tks⟩ :: fs.map (fun f => ⟨OptionalVariant.Option, [TokenTree.ident f]⟩)) =
      ⟨OptionalVariant.Option, tks⟩ ::
        fs.map (fun f => ⟨OptionalVariant.Option, [TokenTree.ident f]⟩) := by
  cases fs with
  | nil => exact absurd rfl hne
  | cons f fs2 =>
    simp only [List.map_cons]
    rw [retag]
    rw [show (⟨OptionalVariant.Option, [TokenTree.ident f]⟩ : OptionalSegment).variant =
      OptionalVariant.Option from rfl]
    have := retag_map_opt (f :: fs2)
    simp only [List.map_cons] at this
    rw [this]

/-- Resolving the last segment of a chain of `Option`-scanned field
segments to `Required` yields exactly `chainSegs`. -/
theorem setLast_chain (fs : List String) (hne : fs ≠ []) :
    setLastVariant (fs.map (fun f => ⟨OptionalVariant.Option, [TokenTree.ident f]⟩))
      OptionalVariant.Required = chainSegs fs := by
  induction fs with
  | nil => exact absurd rfl hne
  | cons f fs ih =>
    cases fs with
    | nil => simp [setLastVariant, chainSegs]
    | cons f2 fs2 =>
      simp only [List.map_cons] at ih ⊢
      rw [setLastVariant, chainSegs]
      rw [ih (List.cons_ne_nil f2 fs2)]
      exact fun hh => absurd hh (List.cons_ne_nil f2 fs2)

/-- The last token of a nonempty chain tail is the last field's
identifier. -/
theorem chainTail_getLast? (fs : List String) (f : String) (h : fs.getLast? = some f) :
    (chainTail fs).getLast? = some (TokenTree.ident f) := by
  induction fs with
  | nil => simp at h
  | cons g fs ih =>
    cases fs with
    | nil =>
      simp at h
      subst h
      simp [chainTail]
    | cons g2 fs2 =>
      rw [List.getLast?_cons_cons] at h
      have h3 := ih h
      show (TokenTree.punct '?' :: TokenTree.punct '.' :: TokenTree.ident g ::
        chainTail (g2 :: fs2)).getLast? = some (TokenTree.ident f)
      cases hct : chainTail (g2 :: fs2) with
      | nil => simp [chainTail] at hct
      | cons t rest =>
        rw [hct] at h3
        rw [List.getLast?_cons_cons, List.getLast?_cons_cons, List.getLast?_cons_cons]
        exact h3

/-- Unfolding of `split_on_optional_variants` when the input's last
token is known. -/
theorem split_eq_of_getLast? (input : List TokenTree) (t : TokenTree)
    (h : input.getLast? = some t) :
    split_on_optional_variants input =
      setLastVariant (retag (scanLoop input [] OptionalVariant.Root [])) (lastTokenKind t) := by
  unfold split_on_optional_variants
  rw [h]

/-- Splitting a C1-shaped chain `base ?. f₁ ?. … ?. fₙ` whose last field
is not literally `Ok` or `Err`: the base segment is `Option`-gated and
the fields follow as in `chainSegs` (all `Option`-gated, last
`Required`). -/
theorem split_chain (s : String) (fs : List String) (f : String)
    (h1 : fs.getLast? = some f) (h2 : f ≠ "Ok") (h3 : f ≠ "Err") :
    split_on_optional_variants (chainTokens s fs) =
      ⟨OptionalVariant.Option, [TokenTree.ident s]⟩ :: chainSegs fs := by
  have hfs : fs ≠ [] := by
    intro hh
    rw [hh] at h1
    simp at h1
  have hscan : scanLoop (chainTokens s fs) [] OptionalVariant.Root [] =
      ⟨OptionalVariant.Root, [TokenTree.ident s]⟩ ::
        fs.map (fun g => ⟨OptionalVariant.Option, [TokenTree.ident g]⟩) := by
    show scanLoop (TokenTree.ident s :: chainTail fs) [] OptionalVariant.Root [] = _
    rw [scan_step_ident]
    simp only [List.nil_append]
    rw [scan_chain fs [TokenTree.ident s] OptionalVariant.Root [] (by simp)]
    simp
  have hlast : (chainTokens s fs).getLast? = some (TokenTree.ident f) := by
    show (TokenTree.ident s :: chainTail fs).getLast? = _
    cases hct : chainTail fs with
    | nil =>
      cases fs with
      | nil => exact absurd rfl hfs
      | cons g fs2 => simp [chainTail] at hct
    | cons t rest =>
      rw [List.getLast?_cons_cons, ← hct]
      exact chainTail_getLast? fs f h1
  have hk : lastTokenKind (TokenTree.ident f) = OptionalVariant.Required := by
    simp [lastTokenKind, h2, h3]
  rw [split_eq_of_getLast? _ _ hlast, hscan, retag_cons_chain fs hfs, hk]
  cases fs with
  | nil => exact absurd rfl hfs
  | cons g fs2 =>
    simp only [List.map_cons]
    rw [setLastVariant]
    have hsl := setLast_chain (g :: fs2) (List.cons_ne_nil g fs2)
    simp only [List.map_cons] at hsl
    rw [hsl]

/-- The denotation of `chainSegs fs` from a bound value `x` is exactly
the claim's predicted walk `specWalk`. -/
theorem runRest_chainSegs {V : Type} (env : Env V) (fs : List String) (hne : fs ≠ []) :
    ∀ x : V, runRest env x (chainSegs fs) = specWalk env x fs := by
  induction fs with
  | nil => exact absurd rfl hne
  | cons f fs ih =>
    intro x
    cases fs with
    | nil => simp [chainSegs, runRest, fieldName?, gate, specWalk]
    | cons f2 fs2 =>
      rw [show chainSegs (f :: f2 :: fs2) =
        ⟨OptionalVariant.Option, [TokenTree.ident f]⟩ :: chainSegs (f2 :: fs2) from rfl]
      simp only [runRest, fieldName?, gate]
      cases hx : env.asSome (env.access x f) with
      | none => simp [specWalk, hx]
      | some y => simp [specWalk, hx, ih (List.cons_ne_nil f2 fs2) y]

/-- Counterexample to claim C1: take the chain `a ?. Ok` — an input of
the claimed form `base ?. f₁` whose single field is literally named `Ok`
— in the environment `envPresent` where every value is present as an
`Option`.  The claim demands the present result of the final field's
value (as `specNullableChain` computes: `(some 1, ["Ok"])`), but the
last-token resolution gates the final field as a `Result` unwrap
(`if let Ok(____v) = …`), which fails in `envPresent`, so the emitted
nest denotes `(none, ["Ok"])`: present intermediates, absent result. -/
theorem claim_C1_counterexample :
    split_on_optional_variants (chainTokens "a" ["Ok"]) =
      [⟨OptionalVariant.Option, [TokenTree.ident "a"]⟩,
       ⟨OptionalVariant.Ok, [TokenTree.ident "Ok"]⟩] ∧
    runSegs envPresent 0 (split_on_optional_variants (chainTokens "a" ["Ok"])) =
      (none, ["Ok"]) ∧
    specNullableChain envPresent 0 ["Ok"] = (some 1, ["Ok"]) := by
  refine ⟨?_, ?_, ?_⟩
  · simp [chainTokens, chainTail, split_on_optional_variants, scanLoop, retag,
      setLastVariant, lastTokenKind]
  · simp [chainTokens, chainTail, split_on_optional_variants, scanLoop, retag,
      setLastVariant, lastTokenKind, runSegs, runRest, fieldName?, gate, envPresent]
  · simp [specNullableChain, specWalk, envPresent]

/-- Claim C1 amended: for every input of the form
`base ?. f₁ ?. … ?. fₙ` (no trailing operator) whose final field is not
literally named `Ok` or `Err`, the emitted nest denotes exactly the
claim's semantics: the present result of the final field's value iff
every intermediate along the path is present, absent from the first
absent intermediate on, with no access evaluated past the failure point
(the access list of both sides stops there). -/
theorem claim_C1_amended {V : Type} (env : Env V) (b : V) (s : String) (fs : List String)
    (f : String) (h1 : fs.getLast? = some f) (h2 : f ≠ "Ok") (h3 : f ≠ "Err") :
    runSegs env b (split_on_optional_variants (chainTokens s fs)) =
      specNullableChain env b fs := by
  have hfs : fs ≠ [] := by
    intro hh
    rw [hh] at h1
    simp at h1
  rw [split_chain s fs f h1 h2 h3]
  cases hb : env.asSome b with
  | none => simp [runSegs, gate, specNullableChain, hb]
  | some x => simp [runSegs, gate, specNullableChain, hb, runRest_chainSegs env fs hfs x]

/-- Witness for the amended claim C1: the chain `u ?. x ?. y` in the
environment `envA` with base value 2. -/
theorem claim_C1_witness :
    (["x", "y"] : List String).getLast? = some "y" ∧ ("y" : String) ≠ "Ok" ∧
    ("y" : String) ≠ "Err" ∧
    runSegs envA 2 (split_on_optional_variants (chainTokens "u" ["x", "y"])) =
      specNullableChain envA 2 ["x", "y"] :=
  ⟨by simp, by simp, by simp,
    claim_C1_amended envA 2 "u" ["x", "y"] "y" (by simp) (by simp) (by simp)⟩
